import Mathlib

/-!
# Shallow embedding of the zksync data-restore account-state engine

The definitions below translate `src/core/data_restore/src/accounts_state.rs`.

Modelling conventions:
* 32-byte words (H256 topics, U256 amounts, batch keys) are naturals below
  `2 ^ 256`; byte buffers are `List Nat` of bytes.
* `BigDecimal` balances, amounts and fees are `ℚ`.
* A Rust panic is modelled as `Option.none` (transfer decoding, batch-key
  slicing) or as an `Except.error` carrying the panic message (the checked
  `U256` addition in the deposit reduction loop).
* The sparse-Merkle `balance_tree.items` map and the reconciliation
  `HashMap`/`HashSet` are association lists with unique keys; only
  `get`/`insert`/`remove`/iteration are exercised by this code, and every
  claim about an iterated result is insensitive to iteration order.
* The web3 log retrieval, the contract-interface event-signature resolution,
  the packed numeric codec and the Jubjub curve recovery are external
  collaborators; they enter as explicit arguments.
-/

namespace AccountsState

/-- Modelled from the spec: the error taxonomy of `helpers::DataRestoreError`
(`helpers.rs` is not under `src/`). Constructor names follow the variants used
in `accounts_state.rs`; conversions from plain message strings (the `?` on
`ok_or` of a string) are modelled by the `Unknown` variant, which is also the
variant the source builds explicitly with a message. -/
inductive DataRestoreError where
  | Unknown (msg : String)
  | WrongType
  | NoData (msg : String)
  | NonexistentAccount
  | WrongAmount
  | WrongEndpoint
  | WrongPubKey
  | DoubleExit
  deriving DecidableEq

/-- Modelled from the spec: `models::plasma::Account` (not under `src/`).
Only the base-asset (`ETH_TOKEN_ID`) balance is exercised by this core, so the
token-to-balance map collapses to a single `ℚ` balance; the public key is a
pair of field elements `(x, y)` encoded as naturals. `Account::default()` has
zero balance, nonce `0` and a zero (unset) key. -/
structure Account where
  balance : ℚ
  nonce : Nat
  publicKeyX : Nat
  publicKeyY : Nat
  deriving DecidableEq

def Account.default : Account := ⟨0, 0, 0, 0⟩

/-- Modelled from the spec: `models::plasma::params::ETH_TOKEN_ID`, the fixed
base-asset token id; its concrete value is never inspected by this core. -/
def ETH_TOKEN_ID : Nat := 0

/-- Association-list lookup, embedding `HashMap::get` /
`balance_tree.items.get`. -/
def lookupA {α : Type} : List (Nat × α) → Nat → Option α
  | [], _ => none
  | p :: m, k => if p.1 = k then some p.2 else lookupA m k

/-- Association-list insert-or-replace, embedding `HashMap::insert` /
`balance_tree.insert`. -/
def insertA {α : Type} : List (Nat × α) → Nat → α → List (Nat × α)
  | [], k, v => [(k, v)]
  | p :: m, k, v => if p.1 = k then (k, v) :: m else p :: insertA m k v

/-- Association-list removal, embedding `HashMap::remove` /
`balance_tree.delete`. -/
def removeA {α : Type} : List (Nat × α) → Nat → List (Nat × α)
  | [], _ => []
  | p :: m, k => if p.1 = k then removeA m k else p :: removeA m k

/-- The key list of an association map. -/
def keysOf {α : Type} (m : List (Nat × α)) : List Nat := m.map (fun p => p.1)

/-- The `balance_tree.items` mapping of `PlasmaState`. -/
abbrev AccountMap := List (Nat × Account)

/-- `models::plasma::tx::TransferTx` (modelled from the spec: the tx types are
not under `src/`). `from` is a Lean keyword, hence `fromAccount`/`toAccount`.
The `signature` field, always `TxSignature::default()` and never read by this
core, is omitted. -/
structure TransferTx where
  fromAccount : Nat
  toAccount : Nat
  token : Nat
  amount : ℚ
  fee : ℚ
  nonce : Nat
  goodUntilBlock : Nat
  deriving DecidableEq

/-- `models::plasma::tx::DepositTx` (modelled from the spec). -/
structure DepositTx where
  account : Nat
  amount : ℚ
  pubX : Nat
  pubY : Nat
  deriving DecidableEq

/-- `models::plasma::tx::ExitTx` (modelled from the spec). -/
structure ExitTx where
  account : Nat
  amount : ℚ
  deriving DecidableEq

/-- One iteration of the loop in `update_accounts_states_from_transfer_op_block`
(`accounts_state.rs` lines 98-125). The recipient is cloned from the tree
before the sender's updated copy is written back, and the sender is inserted
before the recipient, exactly as in the source. On failure the first component
is the untouched tree, mirroring that the source returns before inserting. -/
def applyTransferTx (t : AccountMap) (tx : TransferTx) :
    AccountMap × Option DataRestoreError :=
  match lookupA t tx.fromAccount with
  | none => (t, some .NonexistentAccount)
  | some fromAcc =>
    let transacted := tx.amount + tx.fee
    if fromAcc.balance < transacted then (t, some .WrongAmount)
    else
      let toAcc := (lookupA t tx.toAccount).getD Account.default
      let fromAcc' : Account :=
        { fromAcc with balance := fromAcc.balance - transacted, nonce := fromAcc.nonce + 1 }
      let toAcc' : Account :=
        if tx.toAccount ≠ 0 then { toAcc with balance := toAcc.balance + tx.amount } else toAcc
      (insertA (insertA t tx.fromAccount fromAcc') tx.toAccount toAcc', none)

/-- The full loop of `update_accounts_states_from_transfer_op_block`:
sequential application, first failure aborts, no rollback of earlier
transactions. -/
def applyTransferBlock (t : AccountMap) :
    List TransferTx → AccountMap × Option DataRestoreError
  | [] => (t, none)
  | tx :: rest =>
    match applyTransferTx t tx with
    | (t', none) => applyTransferBlock t' rest
    | (t', some e) => (t', some e)

/-- One iteration of the loop in `update_accounts_states_from_deposit_op_block`
(lines 143-157): remove-or-default (a fresh account inherits the decoded
public key), add the amount to the base-asset balance, insert back.
Remove-then-insert on the association map is insert-or-replace. -/
def applyDepositTx (t : AccountMap) (tx : DepositTx) : AccountMap :=
  let account : Account :=
    match lookupA t tx.account with
    | some acc => acc
    | none => { Account.default with publicKeyX := tx.pubX, publicKeyY := tx.pubY }
  insertA t tx.account { account with balance := account.balance + tx.amount }

/-- `get_batch_number` (lines 196-200): copies the first 32 bytes of
`commitment_data` into the `H256` batch key. Slicing `[0..32]` of a shorter
buffer is a Rust panic, modelled as `none`. -/
def get_batch_number (commitmentData : List Nat) : Option (List Nat) :=
  if commitmentData.length < 32 then none else some (commitmentData.take 32)

/-- `slice::chunks(9)`: every produced chunk is nonempty and the last chunk
may be shorter than 9 (the remainder is kept, not dropped). Structural fuel
recursion; the fuel `l.length` used by `chunks9` is always sufficient. -/
def chunks9Fuel : Nat → List Nat → List (List Nat)
  | 0, _ => []
  | _ + 1, [] => []
  | fuel + 1, b :: bs => ((b :: bs).take 9) :: chunks9Fuel fuel ((b :: bs).drop 9)

def chunks9 (l : List Nat) : List (List Nat) := chunks9Fuel l.length l

/-- One iteration of the decoding loop in
`get_all_transactions_from_transfer_block` (lines 220-242): bytes 0-2 are the
big-endian sender id, bytes 3-5 the big-endian recipient id, bytes 6-7 the
packed amount and byte 8 the packed fee. The packed codecs
(`amount_bytes_slice_to_big_decimal`, `fee_bytes_slice_to_big_decimal`, in
`helpers.rs`, not under `src/`; the spec treats them as a black-box
deterministic codec) are the abstract parameters `decodeAmount`/`decodeFee`.
Indexing a chunk shorter than 9 bytes is a Rust slice panic, modelled as
`none`; the enumerate index `i` becomes the nonce. -/
def parseTransferRecord (decodeAmount : Nat → Nat → ℚ) (decodeFee : Nat → ℚ)
    (i : Nat) (c : List Nat) : Option TransferTx :=
  if 9 ≤ c.length then
    some { fromAccount := (c.getD 0 0) * 65536 + (c.getD 1 0) * 256 + c.getD 2 0,
           toAccount := (c.getD 3 0) * 65536 + (c.getD 4 0) * 256 + c.getD 5 0,
           token := ETH_TOKEN_ID,
           amount := decodeAmount (c.getD 6 0) (c.getD 7 0),
           fee := decodeFee (c.getD 8 0),
           nonce := i,
           goodUntilBlock := 0 }
  else none

/-- The decoding loop with its `enumerate` index; the first panicking record
aborts the whole decode (`none`). -/
def decodeChunks (decodeAmount : Nat → Nat → ℚ) (decodeFee : Nat → ℚ) :
    Nat → List (List Nat) → Option (List TransferTx)
  | _, [] => some []
  | i, c :: cs =>
    match parseTransferRecord decodeAmount decodeFee i c with
    | none => none
    | some tx =>
      match decodeChunks decodeAmount decodeFee (i + 1) cs with
      | none => none
      | some txs => some (tx :: txs)

/-- `get_all_transactions_from_transfer_block` (lines 208-245): the
reverse/truncate/reverse dance keeps the last `len - 160` bytes, i.e. drops
the 160-byte header; for a buffer shorter than 160 bytes the `usize`
subtraction is a panic, modelled as `none`. The remainder is decoded as
9-byte records. -/
def get_all_transactions_from_transfer_block (decodeAmount : Nat → Nat → ℚ)
    (decodeFee : Nat → ℚ) (commitmentData : List Nat) :
    Option (List TransferTx) :=
  if commitmentData.length < 160 then none
  else decodeChunks decodeAmount decodeFee 0 (chunks9 (commitmentData.drop 160))

/-- An on-chain log event as consumed by this core: `topics[0]` is the event
signature, `topics[2]` the account id and `topics[3]` the deposit public-key
word (each a 32-byte word read as a big-endian natural; `topics[1]`, the batch
key, is fixed by the retrieval filter and never re-read by these loops).
`data` is the payload already read as a big-endian natural
(`U256::from_big_endian`). `blockNumber` and `logIndex` give the mined
position; `removed` is the reorg flag. -/
structure Log where
  topic0 : Nat
  topic2 : Nat
  topic3 : Nat
  data : Nat
  blockNumber : Nat
  logIndex : Nat
  removed : Bool
  deriving DecidableEq

/-- Integer `Ord::cmp`. -/
def natCmp (m n : Nat) : Ordering :=
  if m < n then .lt else if n < m then .gt else .eq

/-- `Ordering::then`. -/
def ordThen : Ordering → Ordering → Ordering
  | .eq, o => o
  | o, _ => o

/-- The comparator of `load_sorted_events` (line 294):
`l_block.cmp(&r_block).then(l_index.cmp(&r_index))`. -/
def logCmp (l r : Log) : Ordering :=
  ordThen (natCmp l.blockNumber r.blockNumber) (natCmp l.logIndex r.logIndex)

/-- Two events differ on the `(block_number, log_index)` ordering key. -/
def keyNe (a b : Log) : Prop :=
  ¬ (a.blockNumber = b.blockNumber ∧ a.logIndex = b.logIndex)

/-- Strict lexicographic order on the `(block_number, log_index)` key. -/
def keyLt (a b : Log) : Prop :=
  a.blockNumber < b.blockNumber ∨
    (a.blockNumber = b.blockNumber ∧ a.logIndex < b.logIndex)

/-- Weak ordering used internally: the comparator does not say `gt`. -/
def keyLe (a b : Log) : Prop := logCmp a b ≠ .gt

instance : DecidableRel keyNe := fun a b => by unfold keyNe; infer_instance

instance : DecidableRel keyLt := fun a b => by unfold keyLt; infer_instance

/-- Insertion into an ascending list, flagging any comparison that returns
`Ordering::Equal` — the `error_flag` side effect of the comparator in
`load_sorted_events`. -/
def insertSortedFlag (x : Log) : List Log → List Log × Bool
  | [] => ([x], false)
  | y :: ys =>
    match logCmp x y with
    | .lt => (x :: y :: ys, false)
    | .eq => (x :: y :: ys, true)
    | .gt => ((y :: (insertSortedFlag x ys).1), (insertSortedFlag x ys).2)

/-- `Vec::sort_by` with the flagging comparator. Any correct comparison sort
must directly compare some pair of key-equal elements when one exists, so the
flag outcome of the source's stable mergesort agrees with this insertion sort;
and when no two keys are equal the strictly-sorted permutation is unique, so
the sorted output agrees as well. `load_sorted_events_spec` proves the flag is
set exactly when two retained events share a key. -/
def sortFlag : List Log → List Log × Bool
  | [] => ([], false)
  | x :: xs =>
    ((insertSortedFlag x (sortFlag xs).1).1,
     ((sortFlag xs).2 || (insertSortedFlag x (sortFlag xs).1).2))

/-- `load_sorted_events` (lines 254-306). The two synchronous web3 `getLogs`
round trips are external collaborators; their results are the two list
arguments (transport and retrieval failures are upstream `WrongEndpoint` /
`NoData` conditions outside these claims). Removed (reorged) events are
discarded, the rest are sorted by `(block_number, log_index)`, and any tie
aborts with the source's error message. -/
def load_sorted_events (actionEvents cancelEvents : List Log) :
    Except DataRestoreError (List Log) :=
  if (sortFlag ((actionEvents ++ cancelEvents).filter (fun e => !e.removed))).2 then
    .error (.Unknown "Logs can not have same indexes")
  else .ok (sortFlag ((actionEvents ++ cancelEvents).filter (fun e => !e.removed))).1

/-- One iteration of the reduction loop in
`get_all_transactions_from_deposit_batch` (lines 361-390). The state maps an
account id to its accumulated `U256` amount and the public-key word of its
first action event. The `U256` addition always checks for overflow (`uint`
crate), a panic modelled as an error. -/
def process_deposit_event (depositTopic cancelTopic : Nat)
    (st : List (Nat × Nat × Nat)) (e : Log) :
    Except DataRestoreError (List (Nat × Nat × Nat)) :=
  if e.topic0 = depositTopic then
    match lookupA st e.topic2 with
    | some record =>
      if record.1 + e.data < 2 ^ 256 then
        .ok (insertA st e.topic2 (record.1 + e.data, record.2))
      else .error (.Unknown "attempt to add with overflow")
    | none => .ok (insertA st e.topic2 (e.data, e.topic3))
  else if e.topic0 = cancelTopic then
    match lookupA st e.topic2 with
    | some _ => .ok (removeA st e.topic2)
    | none => .error (.Unknown "existing_record not found for deposits")
  else .error (.Unknown "unexpected topic")

/-- The deposit reduction loop over the sorted events. -/
def process_deposit_events (depositTopic cancelTopic : Nat)
    (st : List (Nat × Nat × Nat)) :
    List Log → Except DataRestoreError (List (Nat × Nat × Nat))
  | [] => .ok st
  | e :: rest =>
    match process_deposit_event depositTopic cancelTopic st e with
    | .ok st' => process_deposit_events depositTopic cancelTopic st' rest
    | .error err => .error err

/-- The order of the BN254 scalar field `Fr` (`models::plasma::Fr`, the base
field of the Baby-Jubjub curve); `Fr::from_repr` fails exactly on values at or
above it. -/
def frModulus : Nat :=
  21888242871839275222246405745257275088548364400416034343698204186575808495617

/-- Conversion of one surviving accumulator entry to a `DepositTx`
(lines 393-431): the top bit of the 32-byte public-key word is the x-sign, the
low 255 bits are the y-coordinate, which must be a valid `Fr` element;
`edwards::Point::get_for_y` (franklin_crypto — the spec isolates curve
recovery behind a capability interface) is the abstract parameter `getForY`,
returning the recovered point's `(x, y)` coordinates, or `none` when no point
exists. The `U256` amount prints in decimal and re-parses as `BigDecimal`
exactly, i.e. the natural embeds into `ℚ`; `as_u32` keeps the low 32 bits. -/
def to_deposit_tx (getForY : Nat → Bool → Option (Nat × Nat))
    (entry : Nat × Nat × Nat) : Except DataRestoreError DepositTx :=
  let pk := entry.2.2 % 2 ^ 256
  let y := pk % 2 ^ 255
  if frModulus ≤ y then .error .WrongPubKey
  else
    match getForY y (decide (2 ^ 255 ≤ pk)) with
    | none => .error .WrongPubKey
    | some p =>
      .ok { account := entry.1 % 2 ^ 32, amount := (entry.2.1 : ℚ),
            pubX := p.1, pubY := p.2 }

/-- The conversion loop with early return: iterate, aborting at the first
error (the source's `for`-loop over the surviving entries with `?`-style
early return on a bad public key). -/
def mapExcept {α β : Type} (f : α → Except DataRestoreError β) :
    List α → Except DataRestoreError (List β)
  | [] => .ok []
  | x :: xs =>
    match f x with
    | .error err => .error err
    | .ok y =>
      match mapExcept f xs with
      | .error err => .error err
      | .ok ys => .ok (y :: ys)

/-- `get_all_transactions_from_deposit_batch` (lines 314-433), with the
external interactions made explicit: the two event-signature topics are
naturals, the retrieved action/cancellation streams are lists, curve recovery
is `getForY`. The source iterates the final `HashMap` in arbitrary order; the
association list fixes insertion order, and every claim about the result is
order-insensitive. -/
def get_all_transactions_from_deposit_batch
    (getForY : Nat → Bool → Option (Nat × Nat))
    (depositTopic cancelTopic : Nat) (actionEvents cancelEvents : List Log) :
    Except DataRestoreError (List DepositTx) :=
  match load_sorted_events actionEvents cancelEvents with
  | .error err => .error err
  | .ok sorted =>
    match process_deposit_events depositTopic cancelTopic [] sorted with
    | .error err => .error err
    | .ok batch => mapExcept (to_deposit_tx getForY) batch

/-- One iteration of the reduction loop in
`get_all_transactions_from_full_exit_batch` (lines 489-513): a pending-exit
set of account ids, kept as a duplicate-free list. -/
def process_full_exit_event (exitTopic cancelTopic : Nat) (st : List Nat)
    (e : Log) : Except DataRestoreError (List Nat) :=
  if e.topic0 = exitTopic then
    if e.topic2 ∈ st then .error .DoubleExit
    else .ok (st ++ [e.topic2])
  else if e.topic0 = cancelTopic then
    if e.topic2 ∈ st then .ok (st.filter (fun k => k != e.topic2))
    else .error (.Unknown "existing_record fetch failed")
  else .error (.Unknown "unexpected topic")

/-- The exit reduction loop over the sorted events. -/
def process_full_exit_events (exitTopic cancelTopic : Nat) (st : List Nat) :
    List Log → Except DataRestoreError (List Nat)
  | [] => .ok st
  | e :: rest =>
    match process_full_exit_event exitTopic cancelTopic st e with
    | .ok st' => process_full_exit_events exitTopic cancelTopic st' rest
    | .error err => .error err

/-- Conversion of the surviving pending-exit set (lines 515-526): one `ExitTx`
per surviving id, amount fixed at zero (`BigDecimal::zero()`), account id
truncated to `u32`. -/
def full_exit_txs (st : List Nat) : List ExitTx :=
  st.map (fun k => { account := k % 2 ^ 32, amount := 0 })

/-- `get_all_transactions_from_full_exit_batch` (lines 441-527), with the
external interactions made explicit as for the deposit path. -/
def get_all_transactions_from_full_exit_batch (exitTopic cancelTopic : Nat)
    (actionEvents cancelEvents : List Log) :
    Except DataRestoreError (List ExitTx) :=
  match load_sorted_events actionEvents cancelEvents with
  | .error err => .error err
  | .ok sorted =>
    match process_full_exit_events exitTopic cancelTopic [] sorted with
    | .error err => .error err
    | .ok batch => .ok (full_exit_txs batch)

/-- The events of the sorted stream that concern account `a` in the deposit
reduction: recognised topic and matching account id (used to state the
per-account claims). -/
def concernsD (depositTopic cancelTopic a : Nat) (e : Log) : Bool :=
  (e.topic0 == depositTopic || e.topic0 == cancelTopic) && e.topic2 == a

/-- Per-account mirror of the deposit reduction: the projection of
`process_deposit_events` onto the events concerning one account id (proved to
agree with it in `process_deposit_events_per_account`). -/
def reduceForAccount (depositTopic cancelTopic : Nat)
    (acc : Option (Nat × Nat)) : List Log → Except Unit (Option (Nat × Nat))
  | [] => .ok acc
  | e :: rest =>
    if e.topic0 = depositTopic then
      match acc with
      | some r =>
        if r.1 + e.data < 2 ^ 256 then
          reduceForAccount depositTopic cancelTopic (some (r.1 + e.data, r.2)) rest
        else .error ()
      | none => reduceForAccount depositTopic cancelTopic (some (e.data, e.topic3)) rest
    else if e.topic0 = cancelTopic then
      match acc with
      | some _ => reduceForAccount depositTopic cancelTopic none rest
      | none => .error ()
    else .error ()

/-! ## Basic association-map lemmas -/

theorem lookupA_insertA_self {α : Type} (m : List (Nat × α)) (k : Nat) (v : α) :
    lookupA (insertA m k v) k = some v := by
  induction m with
  | nil => simp [insertA, lookupA]
  | cons p m ih =>
    by_cases h : p.1 = k
    · simp [insertA, h, lookupA]
    · simp [insertA, h, lookupA, ih]

theorem keysOf_nil {α : Type} : keysOf ([] : List (Nat × α)) = [] := rfl

theorem keysOf_cons {α : Type} (p : Nat × α) (m : List (Nat × α)) :
    keysOf (p :: m) = p.1 :: keysOf m := rfl

theorem lookupA_insertA_ne {α : Type} (m : List (Nat × α)) (k k' : Nat) (v : α)
    (h : k' ≠ k) : lookupA (insertA m k v) k' = lookupA m k' := by
  have h' : ¬ k = k' := fun hh => h hh.symm
  induction m with
  | nil => simp [insertA, lookupA, h']
  | cons p m ih =>
    by_cases hp : p.1 = k
    · simp [insertA, hp, lookupA, h']
    · simp [insertA, hp, lookupA, ih]

theorem lookupA_removeA_self {α : Type} (m : List (Nat × α)) (k : Nat) :
    lookupA (removeA m k) k = none := by
  induction m with
  | nil => simp [removeA, lookupA]
  | cons p m ih =>
    by_cases h : p.1 = k
    · simp [removeA, h, ih]
    · simp [removeA, h, lookupA, ih]

theorem lookupA_removeA_ne {α : Type} (m : List (Nat × α)) (k k' : Nat)
    (h : k' ≠ k) : lookupA (removeA m k) k' = lookupA m k' := by
  have h' : ¬ k = k' := fun hh => h hh.symm
  induction m with
  | nil => simp [removeA, lookupA]
  | cons p m ih =>
    by_cases hp : p.1 = k
    · simp [removeA, hp, lookupA, h', ih]
    · simp [removeA, hp, lookupA, ih]

theorem keysOf_insertA_subset {α : Type} (m : List (Nat × α)) (k : Nat) (v : α) :
    keysOf (insertA m k v) ⊆ k :: keysOf m := by
  induction m with
  | nil => simp [insertA, keysOf]
  | cons p m ih =>
    by_cases h : p.1 = k
    · rw [insertA, if_pos h, keysOf_cons, keysOf_cons]
      intro x hx
      rcases List.mem_cons.mp hx with hx | hx
      · exact List.mem_cons.mpr (Or.inl hx)
      · exact List.mem_cons.mpr (Or.inr (List.mem_cons.mpr (Or.inr hx)))
    · rw [insertA, if_neg h, keysOf_cons, keysOf_cons]
      intro x hx
      rcases List.mem_cons.mp hx with hx | hx
      · exact List.mem_cons.mpr (Or.inr (List.mem_cons.mpr (Or.inl hx)))
      · rcases List.mem_cons.mp (ih hx) with h1 | h1
        · exact List.mem_cons.mpr (Or.inl h1)
        · exact List.mem_cons.mpr (Or.inr (List.mem_cons.mpr (Or.inr h1)))

theorem keysOf_removeA_subset {α : Type} (m : List (Nat × α)) (k : Nat) :
    keysOf (removeA m k) ⊆ keysOf m := by
  induction m with
  | nil => simp [removeA, keysOf]
  | cons p m ih =>
    by_cases h : p.1 = k
    · rw [removeA, if_pos h, keysOf_cons]
      intro x hx
      exact List.mem_cons.mpr (Or.inr (ih hx))
    · rw [removeA, if_neg h, keysOf_cons, keysOf_cons]
      intro x hx
      rcases List.mem_cons.mp hx with hx | hx
      · exact List.mem_cons.mpr (Or.inl hx)
      · exact List.mem_cons.mpr (Or.inr (ih hx))

theorem lookupA_eq_none_iff {α : Type} (m : List (Nat × α)) (k : Nat) :
    lookupA m k = none ↔ k ∉ keysOf m := by
  induction m with
  | nil => simp [lookupA, keysOf]
  | cons p m ih =>
    rw [keysOf_cons]
    by_cases h : p.1 = k
    · simp [lookupA, h]
    · rw [lookupA, if_neg h, ih]
      have h' : ¬ k = p.1 := fun hh => h hh.symm
      simp [List.mem_cons, h']

theorem nodup_keysOf_insertA {α : Type} (m : List (Nat × α)) (k : Nat) (v : α)
    (h : (keysOf m).Nodup) : (keysOf (insertA m k v)).Nodup := by
  induction m with
  | nil => simp [insertA, keysOf]
  | cons p m ih =>
    rw [keysOf_cons, List.nodup_cons] at h
    by_cases hp : p.1 = k
    · rw [insertA, if_pos hp, keysOf_cons, List.nodup_cons]
      exact ⟨by rw [← hp]; exact h.1, h.2⟩
    · rw [insertA, if_neg hp, keysOf_cons, List.nodup_cons]
      refine ⟨fun hmem => ?_, ih h.2⟩
      rcases List.mem_cons.mp (keysOf_insertA_subset m k v hmem) with h1 | h1
      · exact hp h1
      · exact h.1 h1

theorem nodup_keysOf_removeA {α : Type} (m : List (Nat × α)) (k : Nat)
    (h : (keysOf m).Nodup) : (keysOf (removeA m k)).Nodup := by
  induction m with
  | nil => simp [removeA, keysOf]
  | cons p m ih =>
    rw [keysOf_cons, List.nodup_cons] at h
    by_cases hp : p.1 = k
    · rw [removeA, if_pos hp]
      exact ih h.2
    · rw [removeA, if_neg hp, keysOf_cons, List.nodup_cons]
      exact ⟨fun hmem => h.1 (keysOf_removeA_subset m k hmem), ih h.2⟩

/-! ## Claim theorems -/

/-- C3: batch-key derivation returns the first 32 bytes of the commitment data
verbatim whenever it holds at least 32 bytes, and fails (the source's slice
panic on `commitment_data[0..32]`, modelled as `none`) whenever it is
shorter. -/
theorem get_batch_number_spec (commitmentData : List Nat) :
    (32 ≤ commitmentData.length →
       get_batch_number commitmentData = some (commitmentData.take 32))
    ∧ (commitmentData.length < 32 → get_batch_number commitmentData = none) := by
  constructor
  · intro h
    unfold get_batch_number
    rw [if_neg (by omega)]
  · intro h
    unfold get_batch_number
    rw [if_pos h]

theorem get_batch_number_spec_witness :
    get_batch_number (List.replicate 40 7) = some (List.replicate 32 7)
    ∧ get_batch_number (List.replicate 5 7) = none := by
  constructor
  · have h := (get_batch_number_spec (List.replicate 40 7)).1 (by simp)
    simpa using h
  · exact (get_batch_number_spec (List.replicate 5 7)).2 (by simp)

/-- C7: a transfer whose sender id is absent from the tree fails with the
nonexistent-account error, and a transfer whose sender balance is strictly
below amount + fee fails with the insufficient-balance (`WrongAmount`) error;
in both cases the returned tree is the input tree, so neither the sender's nor
the recipient's stored account is changed by that transaction. -/
theorem transfer_failure_frame (t : AccountMap) (tx : TransferTx) :
    (lookupA t tx.fromAccount = none →
       applyTransferTx t tx = (t, some DataRestoreError.NonexistentAccount))
    ∧ (∀ s, lookupA t tx.fromAccount = some s → s.balance < tx.amount + tx.fee →
       applyTransferTx t tx = (t, some DataRestoreError.WrongAmount)) := by
  constructor
  · intro h
    simp [applyTransferTx, h]
  · intro s hs hlt
    simp [applyTransferTx, hs, hlt]

theorem transfer_failure_frame_witness :
    applyTransferTx []
      { fromAccount := 1, toAccount := 2, token := 0,
        amount := 1, fee := 0, nonce := 0, goodUntilBlock := 0 }
      = ([], some DataRestoreError.NonexistentAccount)
    ∧ applyTransferTx [(1, ⟨1, 0, 0, 0⟩)]
      { fromAccount := 1, toAccount := 2,
        token := 0, amount := 2, fee := 1, nonce := 0, goodUntilBlock := 0 }
      = ([(1, ⟨1, 0, 0, 0⟩)], some DataRestoreError.WrongAmount) := by
  constructor
  · exact (transfer_failure_frame _ _).1 rfl
  · exact (transfer_failure_frame _ _).2 ⟨1, 0, 0, 0⟩ (by simp [lookupA]) (by norm_num)

/-- C8: a deposit to an absent account id creates a fresh account carrying the
decoded public key and exactly the deposited amount as balance; a deposit to
an existing account adds the amount to its balance and keeps every other
field — in particular the existing public key is never overwritten by the
decoded one. -/
theorem deposit_apply_spec (t : AccountMap) (tx : DepositTx) :
    (lookupA t tx.account = none →
       lookupA (applyDepositTx t tx) tx.account
         = some { balance := tx.amount, nonce := 0,
                  publicKeyX := tx.pubX, publicKeyY := tx.pubY })
    ∧ (∀ a, lookupA t tx.account = some a →
       lookupA (applyDepositTx t tx) tx.account
         = some { a with balance := a.balance + tx.amount }) := by
  constructor
  · intro h
    simp [applyDepositTx, h, lookupA_insertA_self, Account.default]
  · intro a ha
    simp [applyDepositTx, ha, lookupA_insertA_self]

theorem deposit_apply_spec_witness :
    lookupA (applyDepositTx []
        { account := 3, amount := 7, pubX := 11, pubY := 12 }) 3
      = some { balance := 7, nonce := 0, publicKeyX := 11, publicKeyY := 12 }
    ∧ lookupA (applyDepositTx [(3, ⟨1, 5, 21, 22⟩)]
        { account := 3, amount := 7, pubX := 11, pubY := 12 }) 3
      = some { balance := (1 : ℚ) + 7, nonce := 5,
               publicKeyX := 21, publicKeyY := 22 } := by
  constructor
  · exact (deposit_apply_spec [] _).1 rfl
  · exact (deposit_apply_spec _ _).2 ⟨1, 5, 21, 22⟩ (by simp [lookupA])

/-- C9: a successful transfer whose recipient id is 0 still writes a record at
account id 0: afterwards the lookup of id 0 returns the pre-transfer account 0
unchanged if it existed (in particular with unchanged balance), and the
default account (zero balance, nonce 0, unset key) if it was absent — so the
lookup is present even though no amount was credited. -/
theorem transfer_to_zero_inserts_account (t t' : AccountMap) (tx : TransferTx)
    (h0 : tx.toAccount = 0) (hok : applyTransferTx t tx = (t', none)) :
    lookupA t' 0 = some ((lookupA t 0).getD Account.default) := by
  unfold applyTransferTx at hok
  cases hs : lookupA t tx.fromAccount with
  | none => rw [hs] at hok; simp at hok
  | some s =>
    rw [hs] at hok
    by_cases hb : s.balance < tx.amount + tx.fee
    · simp only [hb, if_pos] at hok
      simp at hok
    · simp only [hb, if_neg, ite_false] at hok
      have ht : t' = insertA (insertA t tx.fromAccount
          { s with balance := s.balance - (tx.amount + tx.fee), nonce := s.nonce + 1 })
          tx.toAccount ((lookupA t tx.toAccount).getD Account.default) := by
        have h1 := congrArg Prod.fst hok
        simp only at h1
        rw [← h1]
        simp [h0]
      rw [ht, h0]
      rw [lookupA_insertA_self]

theorem transfer_to_zero_inserts_account_witness :
    lookupA [(1, (⟨4, 1, 0, 0⟩ : Account)), (0, ⟨0, 0, 0, 0⟩)] 0
      = some ((lookupA [(1, (⟨10, 0, 0, 0⟩ : Account))] 0).getD Account.default) := by
  refine transfer_to_zero_inserts_account [(1, ⟨10, 0, 0, 0⟩)] _
    { fromAccount := 1, toAccount := 0, token := 0, amount := 5, fee := 1,
      nonce := 0, goodUntilBlock := 0 } rfl ?_
  norm_num [applyTransferTx, lookupA, insertA, Account.default]

/-- C1 counterexample: a successful self-transfer (sender id = recipient id
= 1, balance 10, amount 5, fee 1). The claim predicts balance
10 - 5 - 1 = 4 and nonce 1 for the sender; the code's recipient write-back
overwrites the sender update, leaving balance 15 and nonce 0. -/
theorem transfer_self_counterexample :
    (applyTransferTx [(1, ⟨10, 0, 0, 0⟩)]
        { fromAccount := 1, toAccount := 1, token := 0, amount := 5, fee := 1,
          nonce := 0, goodUntilBlock := 0 }).2 = none
    ∧ lookupA (applyTransferTx [(1, ⟨10, 0, 0, 0⟩)]
        { fromAccount := 1, toAccount := 1, token := 0, amount := 5, fee := 1,
          nonce := 0, goodUntilBlock := 0 }).1 1 = some ⟨15, 0, 0, 0⟩
    ∧ lookupA (applyTransferTx [(1, ⟨10, 0, 0, 0⟩)]
        { fromAccount := 1, toAccount := 1, token := 0, amount := 5, fee := 1,
          nonce := 0, goodUntilBlock := 0 }).1 1 ≠ some ⟨4, 1, 0, 0⟩ := by
  refine ⟨?_, ?_, ?_⟩
  · norm_num [applyTransferTx, lookupA, insertA, Account.default]
  · norm_num [applyTransferTx, lookupA, insertA, Account.default]
  · norm_num [applyTransferTx, lookupA, insertA, Account.default]

/-- C1 amended: for every successful transfer with distinct sender and
recipient ids, the sender's balance afterwards is its balance before minus
amount minus fee, its nonce increments by one, and a nonzero recipient's
balance afterwards is its balance before (default 0 if absent) plus amount.
When sender = recipient the recipient write-back overwrites the sender
update: the stored account afterwards keeps its old nonce and has balance
before plus amount (exactly its pre-state when the shared id is 0). -/
theorem transfer_apply_success_spec (t t' : AccountMap) (tx : TransferTx)
    (s : Account) (hok : applyTransferTx t tx = (t', none))
    (hs : lookupA t tx.fromAccount = some s) :
    (tx.fromAccount ≠ tx.toAccount →
       lookupA t' tx.fromAccount
         = some { s with
                  balance := s.balance - (tx.amount + tx.fee),
                  nonce := s.nonce + 1 }
       ∧ (tx.toAccount ≠ 0 →
           lookupA t' tx.toAccount
             = some { (lookupA t tx.toAccount).getD Account.default with
                      balance := ((lookupA t tx.toAccount).getD Account.default).balance
                        + tx.amount }))
    ∧ (tx.fromAccount = tx.toAccount →
       lookupA t' tx.fromAccount
         = some (if tx.toAccount = 0 then s
                 else { s with balance := s.balance + tx.amount })) := by
  unfold applyTransferTx at hok
  rw [hs] at hok
  by_cases hb : s.balance < tx.amount + tx.fee
  · simp only [hb, if_pos] at hok
    simp at hok
  · simp only [hb, if_neg, ite_false] at hok
    have ht : t' = insertA (insertA t tx.fromAccount
        { s with balance := s.balance - (tx.amount + tx.fee), nonce := s.nonce + 1 })
        tx.toAccount
        (if tx.toAccount ≠ 0 then
          { (lookupA t tx.toAccount).getD Account.default with
            balance := ((lookupA t tx.toAccount).getD Account.default).balance + tx.amount }
         else (lookupA t tx.toAccount).getD Account.default) := by
      have h1 := congrArg Prod.fst hok
      simp only at h1
      rw [← h1]
    constructor
    · intro hne
      constructor
      · rw [ht, lookupA_insertA_ne _ _ _ _ hne, lookupA_insertA_self]
      · intro h0
        rw [ht, lookupA_insertA_self]
        simp [h0]
    · intro heq
      rw [ht, ← heq, lookupA_insertA_self]
      by_cases h0 : tx.fromAccount = 0
      · rw [h0] at hs
        simp [h0, hs]
      · simp [h0, hs]

theorem transfer_apply_success_spec_witness :
    (lookupA [(1, (⟨10 - (4 + 1), 0 + 1, 0, 0⟩ : Account)), (2, ⟨3 + 4, 0, 0, 0⟩)] 1
       = some ⟨(10 : ℚ) - (4 + 1), 0 + 1, 0, 0⟩
     ∧ ((2 : Nat) ≠ 0 →
        lookupA [(1, (⟨10 - (4 + 1), 0 + 1, 0, 0⟩ : Account)), (2, ⟨3 + 4, 0, 0, 0⟩)] 2
          = some ⟨(3 : ℚ) + 4, 0, 0, 0⟩))
    ∧ lookupA [(1, (⟨10 + 5, 0, 0, 0⟩ : Account))] 1
        = some ⟨(10 : ℚ) + 5, 0, 0, 0⟩ := by
  constructor
  · have hok : applyTransferTx [(1, ⟨10, 0, 0, 0⟩), (2, ⟨3, 0, 0, 0⟩)]
        ⟨1, 2, 0, 4, 1, 0, 0⟩
        = ([(1, ⟨10 - (4 + 1), 0 + 1, 0, 0⟩), (2, ⟨3 + 4, 0, 0, 0⟩)], none) := by
      norm_num [applyTransferTx, lookupA, insertA]
    have hs : lookupA [(1, (⟨10, 0, 0, 0⟩ : Account)), (2, ⟨3, 0, 0, 0⟩)]
        (⟨1, 2, 0, 4, 1, 0, 0⟩ : TransferTx).fromAccount = some ⟨10, 0, 0, 0⟩ := by
      simp [lookupA]
    have h := (transfer_apply_success_spec _ _ _ _ hok hs).1 (by norm_num)
    refine ⟨?_, fun _ => ?_⟩
    · simpa [lookupA] using h.1
    · have h2 := h.2 (by norm_num)
      simpa [lookupA, Account.default] using h2
  · have hok : applyTransferTx [(1, ⟨10, 0, 0, 0⟩)] ⟨1, 1, 0, 5, 2, 0, 0⟩
        = ([(1, ⟨10 + 5, 0, 0, 0⟩)], none) := by
      norm_num [applyTransferTx, lookupA, insertA]
    have hs : lookupA [(1, (⟨10, 0, 0, 0⟩ : Account))]
        (⟨1, 1, 0, 5, 2, 0, 0⟩ : TransferTx).fromAccount = some ⟨10, 0, 0, 0⟩ := by
      simp [lookupA]
    have h := (transfer_apply_success_spec _ _ _ _ hok hs).2 rfl
    simpa [lookupA] using h

theorem parseTransferRecord_none (dA : Nat → Nat → ℚ) (dF : Nat → ℚ) (i : Nat)
    (c : List Nat) (h : c.length < 9) : parseTransferRecord dA dF i c = none := by
  unfold parseTransferRecord
  rw [if_neg (by omega)]

theorem decodeChunks_short (dA : Nat → Nat → ℚ) (dF : Nat → ℚ) :
    ∀ (fuel : Nat) (l : List Nat) (i : Nat), l.length ≤ fuel →
      l.length % 9 ≠ 0 → decodeChunks dA dF i (chunks9Fuel fuel l) = none := by
  intro fuel
  induction fuel with
  | zero =>
    intro l i h1 h2
    have : l.length = 0 := by omega
    simp [this] at h2
  | succ f ih =>
    intro l i h1 h2
    match l with
    | [] => simp at h2
    | b :: bs =>
      rw [chunks9Fuel]
      by_cases h9 : (b :: bs).length < 9
      · have hlt : ((b :: bs).take 9).length < 9 := by
          rw [List.length_take]; omega
        rw [decodeChunks, parseTransferRecord_none dA dF i _ hlt]
      · cases hp : parseTransferRecord dA dF i ((b :: bs).take 9) with
        | none => rw [decodeChunks, hp]
        | some tx =>
          rw [decodeChunks, hp]
          have hlen : ((b :: bs).drop 9).length ≤ f := by
            rw [List.length_drop]; omega
          have hmod : ((b :: bs).drop 9).length % 9 ≠ 0 := by
            rw [List.length_drop]; omega
          rw [ih ((b :: bs).drop 9) (i + 1) hlen hmod]

set_option maxRecDepth 4000 in
/-- C2 counterexample: a transfer block of 160 header bytes plus one stray
trailing byte. The claim predicts a successful decode of the zero complete
records (`some []`, no error); the code keeps the trailing 1-byte chunk and
panics indexing it (modelled as `none`). -/
theorem transfer_decode_truncation_counterexample :
    get_all_transactions_from_transfer_block (fun a b => ((a * 256 + b : Nat) : ℚ))
      (fun b => (b : ℚ)) (List.replicate 160 0 ++ [7]) = none
    ∧ get_all_transactions_from_transfer_block (fun a b => ((a * 256 + b : Nat) : ℚ))
      (fun b => (b : ℚ)) (List.replicate 160 0 ++ [7]) ≠ some [] := by
  refine ⟨by decide, by decide⟩

/-- C2 amended: for every transfer block whose commitment data, after the
160-byte header, has length that is not a multiple of 9, decoding does not
silently drop the trailing partial record: Rust `chunks(9)` keeps the short
remainder chunk and the fixed-offset indexing into it panics, so decoding
fails (modelled as `none`) and no transfer list is returned. -/
theorem transfer_decode_partial_record_fails (dA : Nat → Nat → ℚ) (dF : Nat → ℚ)
    (commitmentData : List Nat) (hlen : 160 ≤ commitmentData.length)
    (hmod : (commitmentData.length - 160) % 9 ≠ 0) :
    get_all_transactions_from_transfer_block dA dF commitmentData = none := by
  unfold get_all_transactions_from_transfer_block
  rw [if_neg (by omega)]
  unfold chunks9
  exact decodeChunks_short dA dF _ _ 0 (le_of_eq rfl)
    (by rw [List.length_drop]; omega)

set_option maxRecDepth 4000 in
theorem transfer_decode_partial_record_fails_witness :
    get_all_transactions_from_transfer_block (fun a b => ((a * 256 + b : Nat) : ℚ))
      (fun b => (b : ℚ)) (List.replicate 160 0 ++ [1, 2, 3]) = none :=
  transfer_decode_partial_record_fails _ _ _ (by decide) (by decide)

/-- C6: in exit reconciliation, an action event for an account id already in
the pending set makes the whole remaining batch fail with the double-exit
error (never a silent dedupe); a cancellation for an id not in the set makes
it fail with the hard existing-record error; otherwise the action appends the
id and the cancellation removes it, processing continuing from the updated
set; and each surviving account id yields exactly one ExitTx, with amount
zero. -/
theorem full_exit_batch_spec (exitTopic cancelTopic : Nat) (st : List Nat)
    (e : Log) (rest : List Log) (hne : exitTopic ≠ cancelTopic) :
    (e.topic0 = exitTopic → e.topic2 ∈ st →
       process_full_exit_events exitTopic cancelTopic st (e :: rest)
         = .error DataRestoreError.DoubleExit)
    ∧ (e.topic0 = exitTopic → e.topic2 ∉ st →
       process_full_exit_events exitTopic cancelTopic st (e :: rest)
         = process_full_exit_events exitTopic cancelTopic (st ++ [e.topic2]) rest)
    ∧ (e.topic0 = cancelTopic → e.topic2 ∉ st →
       process_full_exit_events exitTopic cancelTopic st (e :: rest)
         = .error (DataRestoreError.Unknown "existing_record fetch failed"))
    ∧ (e.topic0 = cancelTopic → e.topic2 ∈ st →
       process_full_exit_events exitTopic cancelTopic st (e :: rest)
         = process_full_exit_events exitTopic cancelTopic
             (st.filter (fun k => k != e.topic2)) rest)
    ∧ ((full_exit_txs st).length = st.length
       ∧ (∀ k, k ∈ st → (⟨k % 2 ^ 32, 0⟩ : ExitTx) ∈ full_exit_txs st)
       ∧ ∀ tx, tx ∈ full_exit_txs st → tx.amount = 0) := by
  have hcne : cancelTopic ≠ exitTopic := fun hh => hne hh.symm
  refine ⟨?_, ?_, ?_, ?_, ?_, ?_, ?_⟩
  · intro h1 h2
    rw [process_full_exit_events, process_full_exit_event, if_pos h1, if_pos h2]
  · intro h1 h2
    rw [process_full_exit_events, process_full_exit_event, if_pos h1, if_neg h2]
  · intro h1 h2
    rw [process_full_exit_events, process_full_exit_event,
      if_neg (by rw [h1]; exact hcne), if_pos h1, if_neg h2]
  · intro h1 h2
    rw [process_full_exit_events, process_full_exit_event,
      if_neg (by rw [h1]; exact hcne), if_pos h1, if_pos h2]
  · simp [full_exit_txs]
  · intro k hk
    simp only [full_exit_txs, List.mem_map]
    exact ⟨k, hk, rfl⟩
  · intro tx htx
    simp only [full_exit_txs, List.mem_map] at htx
    obtain ⟨k, _, hk⟩ := htx
    rw [← hk]

theorem full_exit_batch_spec_witness :
    (process_full_exit_events 1 2 [5] [⟨1, 5, 0, 0, 3, 0, false⟩]
       = .error DataRestoreError.DoubleExit)
    ∧ (process_full_exit_events 1 2 [] [⟨1, 5, 0, 0, 3, 0, false⟩]
       = process_full_exit_events 1 2 [5] [])
    ∧ (process_full_exit_events 1 2 [] [⟨2, 5, 0, 0, 3, 0, false⟩]
       = .error (DataRestoreError.Unknown "existing_record fetch failed"))
    ∧ (process_full_exit_events 1 2 [5] [⟨2, 5, 0, 0, 3, 0, false⟩]
       = process_full_exit_events 1 2 [] [])
    ∧ (⟨5 % 2 ^ 32, 0⟩ : ExitTx) ∈ full_exit_txs [5] := by
  refine ⟨?_, ?_, ?_, ?_, ?_⟩
  · exact (full_exit_batch_spec 1 2 [5] ⟨1, 5, 0, 0, 3, 0, false⟩ [] (by decide)).1
      rfl (by decide)
  · exact ((full_exit_batch_spec 1 2 [] ⟨1, 5, 0, 0, 3, 0, false⟩ [] (by decide)).2).1
      rfl (by decide)
  · exact ((full_exit_batch_spec 1 2 [] ⟨2, 5, 0, 0, 3, 0, false⟩ [] (by decide)).2).2.1
      rfl (by decide)
  · have h := ((full_exit_batch_spec 1 2 [5] ⟨2, 5, 0, 0, 3, 0, false⟩ []
      (by decide)).2).2.2.1 rfl (by decide)
    simpa using h
  · exact ((full_exit_batch_spec 1 2 [5] ⟨2, 5, 0, 0, 3, 0, false⟩ []
      (by decide)).2).2.2.2.2.1 5 (by decide)

theorem natCmp_eq_lt {m n : Nat} : natCmp m n = .lt ↔ m < n := by
  unfold natCmp
  by_cases h1 : m < n
  · simp [h1]
  · by_cases h2 : n < m <;> simp [h1, h2]

theorem natCmp_eq_gt {m n : Nat} : natCmp m n = .gt ↔ n < m := by
  unfold natCmp
  by_cases h1 : m < n
  · simp [h1]; omega
  · by_cases h2 : n < m <;> simp [h1, h2]

theorem natCmp_eq_eq {m n : Nat} : natCmp m n = .eq ↔ m = n := by
  unfold natCmp
  by_cases h1 : m < n
  · simp [h1]; omega
  · by_cases h2 : n < m <;> simp [h1, h2] <;> try omega

theorem logCmp_eq_eq {a b : Log} :
    logCmp a b = .eq ↔ (a.blockNumber = b.blockNumber ∧ a.logIndex = b.logIndex) := by
  unfold logCmp
  cases hc : natCmp a.blockNumber b.blockNumber with
  | lt =>
    have := natCmp_eq_lt.mp hc
    simp [ordThen]
    omega
  | eq =>
    have := natCmp_eq_eq.mp hc
    simp [ordThen, natCmp_eq_eq, this]
  | gt =>
    have := natCmp_eq_gt.mp hc
    simp [ordThen]
    omega

theorem logCmp_eq_lt {a b : Log} : logCmp a b = .lt ↔ keyLt a b := by
  unfold logCmp keyLt
  cases hc : natCmp a.blockNumber b.blockNumber with
  | lt =>
    have := natCmp_eq_lt.mp hc
    simp [ordThen, this]
  | eq =>
    have := natCmp_eq_eq.mp hc
    simp [ordThen, natCmp_eq_lt, this]
  | gt =>
    have := natCmp_eq_gt.mp hc
    simp [ordThen]
    omega

theorem logCmp_eq_gt {a b : Log} : logCmp a b = .gt ↔ keyLt b a := by
  unfold logCmp keyLt
  cases hc : natCmp a.blockNumber b.blockNumber with
  | lt =>
    have := natCmp_eq_lt.mp hc
    simp [ordThen]
    omega
  | eq =>
    have := natCmp_eq_eq.mp hc
    simp [ordThen, natCmp_eq_gt, this]
    try omega
  | gt =>
    have := natCmp_eq_gt.mp hc
    simp [ordThen, this]

theorem keyLe_iff {a b : Log} :
    keyLe a b ↔ (a.blockNumber < b.blockNumber ∨
      (a.blockNumber = b.blockNumber ∧ a.logIndex ≤ b.logIndex)) := by
  unfold keyLe
  constructor
  · intro h
    have hk : ¬ keyLt b a := fun hk => h (logCmp_eq_gt.mpr hk)
    unfold keyLt at hk
    omega
  · intro h hg
    have := logCmp_eq_gt.mp hg
    unfold keyLt at this
    omega

theorem insertSortedFlag_perm (x : Log) (s : List Log) :
    (insertSortedFlag x s).1.Perm (x :: s) := by
  induction s with
  | nil => simp [insertSortedFlag]
  | cons y ys ih =>
    rw [insertSortedFlag]
    cases h : logCmp x y
    · exact List.Perm.refl _
    · exact List.Perm.refl _
    · exact (ih.cons y).trans (List.Perm.swap x y ys)

theorem sortFlag_perm (l : List Log) : (sortFlag l).1.Perm l := by
  induction l with
  | nil => simp [sortFlag]
  | cons x xs ih =>
    rw [sortFlag]
    exact (insertSortedFlag_perm x (sortFlag xs).1).trans (ih.cons x)

theorem insertSortedFlag_pairwise (x : Log) (s : List Log)
    (hs : s.Pairwise keyLe) : (insertSortedFlag x s).1.Pairwise keyLe := by
  induction s with
  | nil => simp [insertSortedFlag]
  | cons y ys ih =>
    rw [List.pairwise_cons] at hs
    rw [insertSortedFlag]
    cases h : logCmp x y with
    | lt =>
      have hxy : keyLe x y := by
        rw [keyLe_iff]
        have := logCmp_eq_lt.mp h
        unfold keyLt at this
        omega
      refine List.Pairwise.cons ?_ (List.Pairwise.cons hs.1 hs.2)
      intro z hz
      rcases List.mem_cons.mp hz with hz | hz
      · rw [hz]; exact hxy
      · have hyz := hs.1 z hz
        rw [keyLe_iff] at hxy hyz ⊢
        omega
    | eq =>
      have hxy : keyLe x y := by
        rw [keyLe_iff]
        have := logCmp_eq_eq.mp h
        omega
      refine List.Pairwise.cons ?_ (List.Pairwise.cons hs.1 hs.2)
      intro z hz
      rcases List.mem_cons.mp hz with hz | hz
      · rw [hz]; exact hxy
      · have hyz := hs.1 z hz
        rw [keyLe_iff] at hxy hyz ⊢
        omega
    | gt =>
      have hyx : keyLe y x := by
        rw [keyLe_iff]
        have := logCmp_eq_gt.mp h
        unfold keyLt at this
        omega
      refine List.Pairwise.cons ?_ (ih hs.2)
      intro z hz
      have hz' : z ∈ x :: ys := (insertSortedFlag_perm x ys).mem_iff.mp hz
      rcases List.mem_cons.mp hz' with hz' | hz'
      · rw [hz']; exact hyx
      · exact hs.1 z hz'

theorem sortFlag_pairwise (l : List Log) : (sortFlag l).1.Pairwise keyLe := by
  induction l with
  | nil => simp [sortFlag]
  | cons x xs ih =>
    rw [sortFlag]
    exact insertSortedFlag_pairwise x (sortFlag xs).1 ih

theorem insertSortedFlag_flag_mem (x : Log) (s : List Log)
    (h : (insertSortedFlag x s).2 = true) : ∃ y ∈ s, logCmp x y = .eq := by
  induction s with
  | nil => simp [insertSortedFlag] at h
  | cons y ys ih =>
    rw [insertSortedFlag] at h
    cases hc : logCmp x y
    · rw [hc] at h; simp at h
    · exact ⟨y, List.mem_cons_self y ys, hc⟩
    · rw [hc] at h
      obtain ⟨z, hz, hcz⟩ := ih h
      exact ⟨z, List.mem_cons_of_mem y hz, hcz⟩

theorem insertSortedFlag_flag_of_mem (x : Log) (s : List Log)
    (hs : s.Pairwise keyLe) (y : Log) (hy : y ∈ s) (he : logCmp x y = .eq) :
    (insertSortedFlag x s).2 = true := by
  induction s with
  | nil => cases hy
  | cons z zs ih =>
    rw [List.pairwise_cons] at hs
    rw [insertSortedFlag]
    cases hc : logCmp x z with
    | lt =>
      exfalso
      rcases List.mem_cons.mp hy with hy' | hy'
      · rw [hy'] at he; rw [he] at hc; cases hc
      · have hzy := hs.1 y hy'
        have h1 := logCmp_eq_lt.mp hc
        have h2 := logCmp_eq_eq.mp he
        rw [keyLe_iff] at hzy
        unfold keyLt at h1
        omega
    | eq => rfl
    | gt =>
      rcases List.mem_cons.mp hy with hy' | hy'
      · exfalso; rw [hy'] at he; rw [he] at hc; cases hc
      · exact ih hs.2 hy'

theorem insertSortedFlag_flag_false (x : Log) (s : List Log)
    (hs : s.Pairwise keyLe) (h : (insertSortedFlag x s).2 = false) :
    ∀ y ∈ s, ¬ logCmp x y = .eq := by
  intro y hy he
  rw [insertSortedFlag_flag_of_mem x s hs y hy he] at h
  cases h

theorem sortFlag_flag_false_iff (l : List Log) :
    (sortFlag l).2 = false ↔ l.Pairwise keyNe := by
  induction l with
  | nil => simp [sortFlag]
  | cons x xs ih =>
    rw [sortFlag]
    simp only [Bool.or_eq_false_iff]
    rw [ih, List.pairwise_cons]
    constructor
    · rintro ⟨h1, h2⟩
      refine ⟨fun y hy => ?_, h1⟩
      have hy' : y ∈ (sortFlag xs).1 := (sortFlag_perm xs).mem_iff.mpr hy
      have := insertSortedFlag_flag_false x (sortFlag xs).1 (sortFlag_pairwise xs) h2 y hy'
      unfold keyNe
      intro hk
      exact this (logCmp_eq_eq.mpr hk)
    · rintro ⟨h1, h2⟩
      refine ⟨h2, ?_⟩
      by_contra hf
      have hf' : (insertSortedFlag x (sortFlag xs).1).2 = true := by
        cases hfc : (insertSortedFlag x (sortFlag xs).1).2
        · exact absurd hfc hf
        · rfl
      obtain ⟨y, hy, he⟩ := insertSortedFlag_flag_mem x (sortFlag xs).1 hf'
      have hy' : y ∈ xs := (sortFlag_perm xs).mem_iff.mp hy
      exact h1 y hy' (logCmp_eq_eq.mp he)

theorem keyNe_symm : ∀ {a b : Log}, keyNe a b → keyNe b a := by
  intro a b h
  unfold keyNe at h ⊢
  omega

theorem sortFlag_pairwise_keyLt (l : List Log)
    (h : (sortFlag l).2 = false) : (sortFlag l).1.Pairwise keyLt := by
  have hle := sortFlag_pairwise l
  have hne0 : l.Pairwise keyNe := (sortFlag_flag_false_iff l).mp h
  have hne : (sortFlag l).1.Pairwise keyNe :=
    ((sortFlag_perm l).pairwise_iff (fun hab => keyNe_symm hab)).mpr hne0
  have := hle.and hne
  refine this.imp ?_
  intro a b hab
  obtain ⟨h1, h2⟩ := hab
  rw [keyLe_iff] at h1
  unfold keyNe at h2
  unfold keyLt
  omega

/-- C4: event reconciliation first discards every event whose removed flag is
set; if any two retained events of the merged action+cancellation stream share
the same (block number, log index) key it fails with the duplicate-ordering
error rather than keeping either; otherwise it returns exactly the retained
events, sorted strictly ascending by that key. -/
theorem load_sorted_events_spec (actionEvents cancelEvents : List Log) :
    (¬ ((actionEvents ++ cancelEvents).filter (fun e => !e.removed)).Pairwise keyNe →
       load_sorted_events actionEvents cancelEvents
         = .error (DataRestoreError.Unknown "Logs can not have same indexes"))
    ∧ (((actionEvents ++ cancelEvents).filter (fun e => !e.removed)).Pairwise keyNe →
       ∃ s, load_sorted_events actionEvents cancelEvents = .ok s
         ∧ s.Perm ((actionEvents ++ cancelEvents).filter (fun e => !e.removed))
         ∧ s.Pairwise keyLt
         ∧ ∀ e ∈ s, e.removed = false) := by
  constructor
  · intro h
    unfold load_sorted_events
    have hf : (sortFlag ((actionEvents ++ cancelEvents).filter
        (fun e => !e.removed))).2 = true := by
      cases hfc : (sortFlag ((actionEvents ++ cancelEvents).filter
          (fun e => !e.removed))).2
      · exact absurd ((sortFlag_flag_false_iff _).mp hfc) h
      · rfl
    rw [if_pos hf]
  · intro h
    have hf : (sortFlag ((actionEvents ++ cancelEvents).filter
        (fun e => !e.removed))).2 = false := (sortFlag_flag_false_iff _).mpr h
    refine ⟨(sortFlag ((actionEvents ++ cancelEvents).filter
        (fun e => !e.removed))).1, ?_, sortFlag_perm _,
      sortFlag_pairwise_keyLt _ hf, ?_⟩
    · unfold load_sorted_events
      rw [if_neg (by rw [hf]; exact Bool.false_ne_true)]
    · intro e he
      have := (sortFlag_perm _).mem_iff.mp he
      have hmem := List.mem_filter.mp this
      simpa using hmem.2

theorem load_sorted_events_spec_witness :
    load_sorted_events [⟨0, 0, 0, 0, 5, 1, false⟩] [⟨1, 0, 0, 0, 5, 1, false⟩]
      = .error (DataRestoreError.Unknown "Logs can not have same indexes")
    ∧ ∃ s, load_sorted_events [⟨0, 0, 0, 0, 6, 0, false⟩]
        [⟨1, 0, 0, 0, 5, 1, false⟩, ⟨2, 0, 0, 0, 6, 0, true⟩] = .ok s
      ∧ s.Perm [⟨0, 0, 0, 0, 6, 0, false⟩, ⟨1, 0, 0, 0, 5, 1, false⟩]
      ∧ s.Pairwise keyLt
      ∧ ∀ e ∈ s, e.removed = false := by
  constructor
  · exact (load_sorted_events_spec [⟨0, 0, 0, 0, 5, 1, false⟩]
      [⟨1, 0, 0, 0, 5, 1, false⟩]).1 (by
        intro h
        have h' : List.Pairwise keyNe
            ([⟨0, 0, 0, 0, 5, 1, false⟩, ⟨1, 0, 0, 0, 5, 1, false⟩] : List Log) := h
        rw [List.pairwise_cons] at h'
        exact h'.1 ⟨1, 0, 0, 0, 5, 1, false⟩ (List.mem_cons_self _ _) ⟨rfl, rfl⟩)
  · have h := (load_sorted_events_spec [⟨0, 0, 0, 0, 6, 0, false⟩]
      [⟨1, 0, 0, 0, 5, 1, false⟩, ⟨2, 0, 0, 0, 6, 0, true⟩]).2 (by
        show List.Pairwise keyNe
          ([⟨0, 0, 0, 0, 6, 0, false⟩, ⟨1, 0, 0, 0, 5, 1, false⟩] : List Log)
        refine List.Pairwise.cons ?_
          (List.Pairwise.cons (by intro e he; cases he) List.Pairwise.nil)
        intro e he
        rw [List.mem_singleton] at he
        rw [he]
        decide)
    exact h

/-! ## Deposit reduction lemmas -/

theorem reduceForAccount_dep_none {dT cT : Nat} {e : Log} {l : List Log}
    (hd : e.topic0 = dT) :
    reduceForAccount dT cT none (e :: l)
      = reduceForAccount dT cT (some (e.data, e.topic3)) l := by
  rw [reduceForAccount, if_pos hd]

theorem reduceForAccount_dep_some {dT cT : Nat} {e : Log} {l : List Log}
    (r : Nat × Nat) (hd : e.topic0 = dT) :
    reduceForAccount dT cT (some r) (e :: l)
      = if r.1 + e.data < 2 ^ 256
        then reduceForAccount dT cT (some (r.1 + e.data, r.2)) l
        else .error () := by
  rw [reduceForAccount, if_pos hd]

theorem reduceForAccount_cancel_some {dT cT : Nat} {e : Log} {l : List Log}
    (r : Nat × Nat) (hd : ¬ e.topic0 = dT) (hc : e.topic0 = cT) :
    reduceForAccount dT cT (some r) (e :: l) = reduceForAccount dT cT none l := by
  rw [reduceForAccount, if_neg hd, if_pos hc]

theorem reduceForAccount_cancel_none {dT cT : Nat} {e : Log} {l : List Log}
    (hd : ¬ e.topic0 = dT) (hc : e.topic0 = cT) :
    reduceForAccount dT cT none (e :: l) = .error () := by
  rw [reduceForAccount, if_neg hd, if_pos hc]

theorem reduceForAccount_append (dT cT : Nat) :
    ∀ (l1 l2 : List Log) (acc : Option (Nat × Nat)),
      reduceForAccount dT cT acc (l1 ++ l2)
        = match reduceForAccount dT cT acc l1 with
          | .ok acc' => reduceForAccount dT cT acc' l2
          | .error err => .error err := by
  intro l1
  induction l1 with
  | nil => intro l2 acc; rfl
  | cons e l1 ih =>
    intro l2 acc
    rw [List.cons_append]
    by_cases hd : e.topic0 = dT
    · cases acc with
      | some r =>
        rw [reduceForAccount_dep_some r hd, reduceForAccount_dep_some r hd]
        by_cases hov : r.1 + e.data < 2 ^ 256
        · rw [if_pos hov, if_pos hov, ih]
        · rw [if_neg hov, if_neg hov]
      | none =>
        rw [reduceForAccount_dep_none hd, reduceForAccount_dep_none hd, ih]
    · by_cases hc : e.topic0 = cT
      · cases acc with
        | some r =>
          rw [reduceForAccount_cancel_some r hd hc,
            reduceForAccount_cancel_some r hd hc, ih]
        | none =>
          rw [reduceForAccount_cancel_none hd hc,
            reduceForAccount_cancel_none hd hc]
      · have hu : ∀ l : List Log,
            reduceForAccount dT cT acc (e :: l) = .error () := fun l => by
          cases acc <;> rw [reduceForAccount, if_neg hd, if_neg hc]
        rw [hu, hu]

theorem process_deposit_event_dep_some {dT cT : Nat}
    {st : List (Nat × Nat × Nat)} {e : Log} (r : Nat × Nat)
    (hd : e.topic0 = dT) (hl : lookupA st e.topic2 = some r) :
    process_deposit_event dT cT st e
      = if r.1 + e.data < 2 ^ 256
        then .ok (insertA st e.topic2 (r.1 + e.data, r.2))
        else .error (.Unknown "attempt to add with overflow") := by
  rw [process_deposit_event, if_pos hd, hl]

theorem process_deposit_event_dep_none {dT cT : Nat}
    {st : List (Nat × Nat × Nat)} {e : Log}
    (hd : e.topic0 = dT) (hl : lookupA st e.topic2 = none) :
    process_deposit_event dT cT st e
      = .ok (insertA st e.topic2 (e.data, e.topic3)) := by
  rw [process_deposit_event, if_pos hd, hl]

theorem process_deposit_event_cancel_some {dT cT : Nat}
    {st : List (Nat × Nat × Nat)} {e : Log} (r : Nat × Nat)
    (hd : ¬ e.topic0 = dT) (hc : e.topic0 = cT)
    (hl : lookupA st e.topic2 = some r) :
    process_deposit_event dT cT st e = .ok (removeA st e.topic2) := by
  rw [process_deposit_event, if_neg hd, if_pos hc, hl]

theorem process_deposit_event_cancel_none {dT cT : Nat}
    {st : List (Nat × Nat × Nat)} {e : Log}
    (hd : ¬ e.topic0 = dT) (hc : e.topic0 = cT)
    (hl : lookupA st e.topic2 = none) :
    process_deposit_event dT cT st e
      = .error (.Unknown "existing_record not found for deposits") := by
  rw [process_deposit_event, if_neg hd, if_pos hc, hl]

theorem process_deposit_event_unknown {dT cT : Nat}
    {st : List (Nat × Nat × Nat)} {e : Log}
    (hd : ¬ e.topic0 = dT) (hc : ¬ e.topic0 = cT) :
    process_deposit_event dT cT st e = .error (.Unknown "unexpected topic") := by
  rw [process_deposit_event, if_neg hd, if_neg hc]

/-- The deposit reduction agrees, account by account, with its per-account
projection `reduceForAccount` over the events concerning that account. -/
theorem process_deposit_events_per_account (dT cT a : Nat) :
    ∀ (evs : List Log) (st st' : List (Nat × Nat × Nat)),
      process_deposit_events dT cT st evs = .ok st' →
      reduceForAccount dT cT (lookupA st a) (evs.filter (concernsD dT cT a))
        = .ok (lookupA st' a) := by
  intro evs
  induction evs with
  | nil =>
    intro st st' h
    rw [process_deposit_events] at h
    injection h with h
    rw [h]
    rfl
  | cons e rest ih =>
    intro st st' h
    rw [process_deposit_events] at h
    cases hstep : process_deposit_event dT cT st e with
    | error err =>
      rw [hstep] at h
      exact Except.noConfusion h
    | ok st1 =>
      rw [hstep] at h
      have ihh := ih st1 st' h
      rw [List.filter_cons]
      by_cases hd : e.topic0 = dT
      · by_cases haa : e.topic2 = a
        · rw [if_pos (show concernsD dT cT a e = true by simp [concernsD, hd, haa])]
          cases hl : lookupA st a with
          | some r =>
            rw [reduceForAccount_dep_some r hd]
            by_cases hov : r.1 + e.data < 2 ^ 256
            · rw [if_pos hov]
              have hst1 : st1 = insertA st a (r.1 + e.data, r.2) := by
                rw [process_deposit_event_dep_some r hd (by rw [haa]; exact hl),
                  if_pos hov] at hstep
                injection hstep with h2
                rw [← h2, haa]
              rw [hst1, lookupA_insertA_self] at ihh
              exact ihh
            · rw [process_deposit_event_dep_some r hd (by rw [haa]; exact hl),
                if_neg hov] at hstep
              exact Except.noConfusion hstep
          | none =>
            rw [reduceForAccount_dep_none hd]
            have hst1 : st1 = insertA st a (e.data, e.topic3) := by
              rw [process_deposit_event_dep_none hd (by rw [haa]; exact hl)] at hstep
              injection hstep with h2
              rw [← h2, haa]
            rw [hst1, lookupA_insertA_self] at ihh
            exact ihh
        · rw [if_neg (show ¬ concernsD dT cT a e = true by simp [concernsD, haa])]
          have hane : a ≠ e.topic2 := fun hh => haa hh.symm
          have hpres : lookupA st1 a = lookupA st a := by
            cases hl : lookupA st e.topic2 with
            | some r =>
              by_cases hov : r.1 + e.data < 2 ^ 256
              · rw [process_deposit_event_dep_some r hd hl, if_pos hov] at hstep
                injection hstep with h2
                rw [← h2]
                exact lookupA_insertA_ne st e.topic2 a _ hane
              · rw [process_deposit_event_dep_some r hd hl, if_neg hov] at hstep
                exact Except.noConfusion hstep
            | none =>
              rw [process_deposit_event_dep_none hd hl] at hstep
              injection hstep with h2
              rw [← h2]
              exact lookupA_insertA_ne st e.topic2 a _ hane
          rw [hpres] at ihh
          exact ihh
      · by_cases hc : e.topic0 = cT
        · by_cases haa : e.topic2 = a
          · rw [if_pos (show concernsD dT cT a e = true by simp [concernsD, hc, haa])]
            cases hl : lookupA st a with
            | some r =>
              rw [reduceForAccount_cancel_some r hd hc]
              have hst1 : st1 = removeA st a := by
                rw [process_deposit_event_cancel_some r hd hc
                  (by rw [haa]; exact hl)] at hstep
                injection hstep with h2
                rw [← h2, haa]
              rw [hst1, lookupA_removeA_self] at ihh
              exact ihh
            | none =>
              rw [process_deposit_event_cancel_none hd hc
                (by rw [haa]; exact hl)] at hstep
              exact Except.noConfusion hstep
          · rw [if_neg (show ¬ concernsD dT cT a e = true by simp [concernsD, haa])]
            have hane : a ≠ e.topic2 := fun hh => haa hh.symm
            have hpres : lookupA st1 a = lookupA st a := by
              cases hl : lookupA st e.topic2 with
              | some r =>
                rw [process_deposit_event_cancel_some r hd hc hl] at hstep
                injection hstep with h2
                rw [← h2]
                exact lookupA_removeA_ne st e.topic2 a hane
              | none =>
                rw [process_deposit_event_cancel_none hd hc hl] at hstep
                exact Except.noConfusion hstep
            rw [hpres] at ihh
            exact ihh
        · rw [process_deposit_event_unknown hd hc] at hstep
          exact Except.noConfusion hstep

/-- A successful deposit-reduction step either replaces the entry at the
event's account id or removes it. -/
theorem process_deposit_event_shape (dT cT : Nat) (st : List (Nat × Nat × Nat))
    (e : Log) (st1 : List (Nat × Nat × Nat))
    (h : process_deposit_event dT cT st e = .ok st1) :
    (∃ v, st1 = insertA st e.topic2 v) ∨ st1 = removeA st e.topic2 := by
  by_cases hd : e.topic0 = dT
  · cases hl : lookupA st e.topic2 with
    | some r =>
      by_cases hov : r.1 + e.data < 2 ^ 256
      · rw [process_deposit_event_dep_some r hd hl, if_pos hov] at h
        injection h with h2
        exact Or.inl ⟨_, h2.symm⟩
      · rw [process_deposit_event_dep_some r hd hl, if_neg hov] at h
        exact Except.noConfusion h
    | none =>
      rw [process_deposit_event_dep_none hd hl] at h
      injection h with h2
      exact Or.inl ⟨_, h2.symm⟩
  · by_cases hc : e.topic0 = cT
    · cases hl : lookupA st e.topic2 with
      | some r =>
        rw [process_deposit_event_cancel_some r hd hc hl] at h
        injection h with h2
        exact Or.inr h2.symm
      | none =>
        rw [process_deposit_event_cancel_none hd hc hl] at h
        exact Except.noConfusion h
    · rw [process_deposit_event_unknown hd hc] at h
      exact Except.noConfusion h

theorem process_deposit_events_keys_lt (dT cT : Nat) :
    ∀ (evs : List Log) (st st' : List (Nat × Nat × Nat)),
      process_deposit_events dT cT st evs = .ok st' →
      (∀ e ∈ evs, e.topic2 < 2 ^ 32) →
      (∀ k ∈ keysOf st, k < 2 ^ 32) →
      ∀ k ∈ keysOf st', k < 2 ^ 32 := by
  intro evs
  induction evs with
  | nil =>
    intro st st' h _ hst
    rw [process_deposit_events] at h
    injection h with h
    rw [← h]
    exact hst
  | cons e rest ih =>
    intro st st' h hevs hst
    rw [process_deposit_events] at h
    cases hstep : process_deposit_event dT cT st e with
    | error err =>
      rw [hstep] at h
      exact Except.noConfusion h
    | ok st1 =>
      rw [hstep] at h
      refine ih st1 st' h (fun x hx => hevs x (List.mem_cons_of_mem e hx)) ?_
      intro k hk
      rcases process_deposit_event_shape dT cT st e st1 hstep with ⟨v, hv⟩ | hv
      · rw [hv] at hk
        rcases List.mem_cons.mp (keysOf_insertA_subset st e.topic2 v hk) with h1 | h1
        · rw [h1]; exact hevs e (List.mem_cons_self e rest)
        · exact hst k h1
      · rw [hv] at hk
        exact hst k (keysOf_removeA_subset st e.topic2 hk)

theorem process_deposit_events_nodup (dT cT : Nat) :
    ∀ (evs : List Log) (st st' : List (Nat × Nat × Nat)),
      process_deposit_events dT cT st evs = .ok st' →
      (keysOf st).Nodup → (keysOf st').Nodup := by
  intro evs
  induction evs with
  | nil =>
    intro st st' h hst
    rw [process_deposit_events] at h
    injection h with h
    rw [← h]
    exact hst
  | cons e rest ih =>
    intro st st' h hst
    rw [process_deposit_events] at h
    cases hstep : process_deposit_event dT cT st e with
    | error err =>
      rw [hstep] at h
      exact Except.noConfusion h
    | ok st1 =>
      rw [hstep] at h
      refine ih st1 st' h ?_
      rcases process_deposit_event_shape dT cT st e st1 hstep with ⟨v, hv⟩ | hv
      · rw [hv]; exact nodup_keysOf_insertA st e.topic2 v hst
      · rw [hv]; exact nodup_keysOf_removeA st e.topic2 hst

/-- A successfully converted accumulator entry becomes a `DepositTx` with the
(truncated) account id and the accumulated amount; its public-key coordinates
come from the curve recovery. -/
theorem to_deposit_tx_ok (getForY : Nat → Bool → Option (Nat × Nat))
    (entry : Nat × Nat × Nat) (tx : DepositTx)
    (h : to_deposit_tx getForY entry = .ok tx) :
    ∃ px py, tx = ⟨entry.1 % 2 ^ 32, ((entry.2.1 : Nat) : ℚ), px, py⟩ := by
  simp only [to_deposit_tx] at h
  by_cases hfr : frModulus ≤ entry.2.2 % 2 ^ 256 % 2 ^ 255
  · rw [if_pos hfr] at h
    exact Except.noConfusion h
  · rw [if_neg hfr] at h
    cases hg : getForY (entry.2.2 % 2 ^ 256 % 2 ^ 255)
        (decide (2 ^ 255 ≤ entry.2.2 % 2 ^ 256)) with
    | none =>
      rw [hg] at h
      exact Except.noConfusion h
    | some p =>
      rw [hg] at h
      injection h with h2
      exact ⟨p.1, p.2, h2.symm⟩

/-- Converting a duplicate-free, `u32`-keyed accumulator map yields exactly
one `DepositTx` per entry: the sublist of transactions for account `a` is
empty when `a` has no entry and is the singleton conversion of `a`'s entry
otherwise. -/
theorem mapExcept_deposit_filter (getForY : Nat → Bool → Option (Nat × Nat))
    (a : Nat) (ha : a < 2 ^ 32) :
    ∀ (m : List (Nat × Nat × Nat)) (txs : List DepositTx),
      (keysOf m).Nodup → (∀ k ∈ keysOf m, k < 2 ^ 32) →
      mapExcept (to_deposit_tx getForY) m = .ok txs →
      ((lookupA m a = none → txs.filter (fun tx => tx.account == a) = [])
       ∧ (∀ r : Nat × Nat, lookupA m a = some r →
           ∃ tx, to_deposit_tx getForY (a, r) = .ok tx
             ∧ txs.filter (fun tx' => tx'.account == a) = [tx])) := by
  intro m
  induction m with
  | nil =>
    intro txs _ _ h
    rw [mapExcept] at h
    injection h with h
    rw [← h]
    exact ⟨fun _ => rfl, fun r hr => Option.noConfusion hr⟩
  | cons p m' ih =>
    intro txs hnd hsm h
    rw [mapExcept] at h
    cases hf : to_deposit_tx getForY p with
    | error err =>
      rw [hf] at h
      exact Except.noConfusion h
    | ok tx0 =>
      rw [hf] at h
      cases hrest : mapExcept (to_deposit_tx getForY) m' with
      | error err =>
        rw [hrest] at h
        exact Except.noConfusion h
      | ok txs' =>
        rw [hrest] at h
        injection h with h
        rw [keysOf_cons, List.nodup_cons] at hnd
        have hsm' : ∀ k ∈ keysOf m', k < 2 ^ 32 := fun k hk =>
          hsm k (by rw [keysOf_cons]; exact List.mem_cons_of_mem _ hk)
        have hp1 : p.1 < 2 ^ 32 :=
          hsm p.1 (by rw [keysOf_cons]; exact List.mem_cons_self _ _)
        obtain ⟨px, py, htx0⟩ := to_deposit_tx_ok getForY p tx0 hf
        have hacc : tx0.account = p.1 := by
          rw [htx0]
          exact Nat.mod_eq_of_lt hp1
        have ihh := ih txs' hnd.2 hsm' hrest
        rw [← h]
        by_cases hpa : p.1 = a
        · constructor
          · intro hnone
            rw [lookupA, if_pos hpa] at hnone
            exact Option.noConfusion hnone
          · intro r hr
            rw [lookupA, if_pos hpa] at hr
            injection hr with hr
            refine ⟨tx0, ?_, ?_⟩
            · rw [← hpa, ← hr]
              exact hf
            · rw [List.filter_cons, if_pos (by simp [hacc, hpa])]
              have hnone : lookupA m' a = none :=
                (lookupA_eq_none_iff m' a).mpr (by rw [← hpa]; exact hnd.1)
              rw [ihh.1 hnone]
        · have hfilter : List.filter (fun tx' => tx'.account == a) (tx0 :: txs')
              = List.filter (fun tx' => tx'.account == a) txs' := by
            rw [List.filter_cons, if_neg (by simp [hacc, hpa])]
          constructor
          · intro hnone
            rw [lookupA, if_neg hpa] at hnone
            rw [hfilter]
            exact ihh.1 hnone
          · intro r hr
            rw [lookupA, if_neg hpa] at hr
            rw [hfilter]
            exact ihh.2 r hr

/-- C5: over the sorted reconciled deposit stream `evs`, for an account id
`a`: two action events with amounts A and B and no intervening cancellation
(the events concerning `a` are exactly those two actions) yield exactly one
DepositTx for `a`, with amount A + B; an action of any amount followed by a
cancellation for `a` yields no DepositTx for `a`; and a cancellation reached
when `a` has no pending accumulation makes the whole batch reconciliation
fail. -/
theorem get_all_transactions_from_deposit_batch_spec
    (getForY : Nat → Bool → Option (Nat × Nat))
    (depositTopic cancelTopic a : Nat)
    (actionEvents cancelEvents evs : List Log)
    (hne : depositTopic ≠ cancelTopic) (ha : a < 2 ^ 32)
    (hsorted : load_sorted_events actionEvents cancelEvents = .ok evs)
    (hsmall : ∀ e ∈ evs, e.topic2 < 2 ^ 32) :
    (∀ e1 e2 txs,
        evs.filter (concernsD depositTopic cancelTopic a) = [e1, e2] →
        e1.topic0 = depositTopic → e2.topic0 = depositTopic →
        get_all_transactions_from_deposit_batch getForY depositTopic cancelTopic
            actionEvents cancelEvents = .ok txs →
        ∃ px py, txs.filter (fun tx => tx.account == a)
          = [⟨a, ((e1.data + e2.data : Nat) : ℚ), px, py⟩])
    ∧ (∀ e1 e2 txs,
        evs.filter (concernsD depositTopic cancelTopic a) = [e1, e2] →
        e1.topic0 = depositTopic → e2.topic0 = cancelTopic →
        get_all_transactions_from_deposit_batch getForY depositTopic cancelTopic
            actionEvents cancelEvents = .ok txs →
        txs.filter (fun tx => tx.account == a) = [])
    ∧ (∀ pre e post,
        evs.filter (concernsD depositTopic cancelTopic a) = pre ++ e :: post →
        reduceForAccount depositTopic cancelTopic none pre = .ok none →
        e.topic0 = cancelTopic →
        ∃ err, get_all_transactions_from_deposit_batch getForY depositTopic
          cancelTopic actionEvents cancelEvents = .error err) := by
  refine ⟨?_, ?_, ?_⟩
  · intro e1 e2 txs hfil h1 h2 hrun
    simp only [get_all_transactions_from_deposit_batch, hsorted] at hrun
    cases hm : process_deposit_events depositTopic cancelTopic [] evs with
    | error err =>
      rw [hm] at hrun
      exact Except.noConfusion hrun
    | ok m =>
      rw [hm] at hrun
      have hred := process_deposit_events_per_account depositTopic cancelTopic a
        evs [] m hm
      rw [hfil] at hred
      have hcomp : reduceForAccount depositTopic cancelTopic
          (lookupA ([] : List (Nat × Nat × Nat)) a) [e1, e2]
          = if e1.data + e2.data < 2 ^ 256
            then .ok (some (e1.data + e2.data, e1.topic3)) else .error () := by
        rw [show lookupA ([] : List (Nat × Nat × Nat)) a = none from rfl]
        rw [reduceForAccount_dep_none h1,
          reduceForAccount_dep_some (e1.data, e1.topic3) h2]
        rfl
      rw [hcomp] at hred
      by_cases hov : e1.data + e2.data < 2 ^ 256
      · rw [if_pos hov] at hred
        injection hred with hred
        have hnd := process_deposit_events_nodup depositTopic cancelTopic evs
          [] m hm (by rw [keysOf_nil]; exact List.nodup_nil)
        have hkl := process_deposit_events_keys_lt depositTopic cancelTopic evs
          [] m hm hsmall (by rw [keysOf_nil]; intro k hk; cases hk)
        obtain ⟨tx, htx, hfil2⟩ :=
          (mapExcept_deposit_filter getForY a ha m txs hnd hkl hrun).2
            (e1.data + e2.data, e1.topic3) hred.symm
        obtain ⟨px, py, hshape⟩ :=
          to_deposit_tx_ok getForY (a, e1.data + e2.data, e1.topic3) tx htx
        refine ⟨px, py, ?_⟩
        rw [hfil2, hshape]
        rw [show (a, e1.data + e2.data, e1.topic3).1 % 2 ^ 32 = a
          from Nat.mod_eq_of_lt ha]
      · rw [if_neg hov] at hred
        exact Except.noConfusion hred
  · intro e1 e2 txs hfil h1 h2 hrun
    simp only [get_all_transactions_from_deposit_batch, hsorted] at hrun
    cases hm : process_deposit_events depositTopic cancelTopic [] evs with
    | error err =>
      rw [hm] at hrun
      exact Except.noConfusion hrun
    | ok m =>
      rw [hm] at hrun
      have hred := process_deposit_events_per_account depositTopic cancelTopic a
        evs [] m hm
      rw [hfil] at hred
      have hd2 : ¬ e2.topic0 = depositTopic := by
        rw [h2]; exact fun hh => hne hh.symm
      have hcomp : reduceForAccount depositTopic cancelTopic
          (lookupA ([] : List (Nat × Nat × Nat)) a) [e1, e2] = .ok none := by
        rw [show lookupA ([] : List (Nat × Nat × Nat)) a = none from rfl]
        rw [reduceForAccount_dep_none h1,
          reduceForAccount_cancel_some (e1.data, e1.topic3) hd2 h2]
        rfl
      rw [hcomp] at hred
      injection hred with hred
      have hnd := process_deposit_events_nodup depositTopic cancelTopic evs
        [] m hm (by rw [keysOf_nil]; exact List.nodup_nil)
      have hkl := process_deposit_events_keys_lt depositTopic cancelTopic evs
        [] m hm hsmall (by rw [keysOf_nil]; intro k hk; cases hk)
      exact (mapExcept_deposit_filter getForY a ha m txs hnd hkl hrun).1 hred.symm
  · intro pre e post hfil hpre hc
    cases hm : process_deposit_events depositTopic cancelTopic [] evs with
    | error err =>
      refine ⟨err, ?_⟩
      simp only [get_all_transactions_from_deposit_batch, hsorted, hm]
    | ok m =>
      exfalso
      have hred := process_deposit_events_per_account depositTopic cancelTopic a
        evs [] m hm
      rw [hfil,
        show lookupA ([] : List (Nat × Nat × Nat)) a = none from rfl] at hred
      have hdc : ¬ e.topic0 = depositTopic := by
        rw [hc]; exact fun hh => hne hh.symm
      rw [reduceForAccount_append depositTopic cancelTopic pre (e :: post) none,
        hpre] at hred
      simp only [] at hred
      rw [reduceForAccount_cancel_none hdc hc] at hred
      exact Except.noConfusion hred

theorem get_all_transactions_from_deposit_batch_spec_witness :
    (∃ px py,
      List.filter (fun tx => tx.account == 5)
          [({ account := 5 % 2 ^ 32, amount := ((30 : Nat) : ℚ),
              pubX := 0, pubY := 77 } : DepositTx)]
        = [{ account := 5, amount := ((10 + 20 : Nat) : ℚ),
             pubX := px, pubY := py }])
    ∧ List.filter (fun tx => tx.account == 5) ([] : List DepositTx) = []
    ∧ ∃ err, get_all_transactions_from_deposit_batch (fun y _ => some (0, y))
        1 2 [] [⟨2, 5, 0, 0, 1, 0, false⟩] = .error err := by
  refine ⟨?_, ?_, ?_⟩
  · exact (get_all_transactions_from_deposit_batch_spec (fun y _ => some (0, y))
      1 2 5 [⟨1, 5, 77, 10, 1, 0, false⟩, ⟨1, 5, 88, 20, 2, 0, false⟩] []
      [⟨1, 5, 77, 10, 1, 0, false⟩, ⟨1, 5, 88, 20, 2, 0, false⟩]
      (by decide) (by decide) rfl (by decide)).1
      ⟨1, 5, 77, 10, 1, 0, false⟩ ⟨1, 5, 88, 20, 2, 0, false⟩
      [{ account := 5 % 2 ^ 32, amount := ((30 : Nat) : ℚ),
         pubX := 0, pubY := 77 }]
      rfl rfl rfl rfl
  · exact ((get_all_transactions_from_deposit_batch_spec (fun y _ => some (0, y))
      1 2 5 [⟨1, 5, 77, 10, 1, 0, false⟩] [⟨2, 5, 0, 0, 2, 0, false⟩]
      [⟨1, 5, 77, 10, 1, 0, false⟩, ⟨2, 5, 0, 0, 2, 0, false⟩]
      (by decide) (by decide) rfl (by decide)).2).1
      ⟨1, 5, 77, 10, 1, 0, false⟩ ⟨2, 5, 0, 0, 2, 0, false⟩ []
      rfl rfl rfl rfl
  · exact ((get_all_transactions_from_deposit_batch_spec (fun y _ => some (0, y))
      1 2 5 [] [⟨2, 5, 0, 0, 1, 0, false⟩] [⟨2, 5, 0, 0, 1, 0, false⟩]
      (by decide) (by decide) rfl (by decide)).2).2
      [] ⟨2, 5, 0, 0, 1, 0, false⟩ [] rfl rfl rfl

/-- An all-action event run folds the amounts into the accumulator while the
recorded public-key word stays untouched. -/
theorem reduceForAccount_all_dep (dT cT : Nat) :
    ∀ (l : List Log) (r : Nat × Nat) (x : Option (Nat × Nat)),
      (∀ e ∈ l, e.topic0 = dT) →
      reduceForAccount dT cT (some r) l = .ok x →
      x = some (r.1 + (l.map (fun e => e.data)).sum, r.2) := by
  intro l
  induction l with
  | nil =>
    intro r x _ h
    rw [reduceForAccount] at h
    injection h with h
    rw [← h]
    simp
  | cons e l ih =>
    intro r x hall h
    have hd : e.topic0 = dT := hall e (List.mem_cons_self e l)
    rw [reduceForAccount_dep_some r hd] at h
    by_cases hov : r.1 + e.data < 2 ^ 256
    · rw [if_pos hov] at h
      have hx := ih (r.1 + e.data, r.2) x
        (fun e' he' => hall e' (List.mem_cons_of_mem e he')) h
      rw [hx, List.map_cons, List.sum_cons, ← Nat.add_assoc]
    · rw [if_neg hov] at h
      exact Except.noConfusion h

/-- C10: when several action events for one account id accumulate within one
deposit batch (all the events concerning that id are actions, two or more or
any number), the public-key word recorded for the account is the one carried
by the first action event while the amounts add up; the key topics of all
subsequent action events are ignored, and the resulting DepositTx for that
account is exactly the conversion of (summed amount, first key word) — the
later events' key words do not affect it. -/
theorem deposit_first_pubkey_wins (getForY : Nat → Bool → Option (Nat × Nat))
    (depositTopic cancelTopic a : Nat) (evs : List Log) (e1 : Log)
    (rest : List Log) (m : List (Nat × Nat × Nat))
    (hfil : evs.filter (concernsD depositTopic cancelTopic a) = e1 :: rest)
    (hall : ∀ e ∈ e1 :: rest, e.topic0 = depositTopic)
    (hm : process_deposit_events depositTopic cancelTopic [] evs = .ok m) :
    lookupA m a
      = some (e1.data + (rest.map (fun e => e.data)).sum, e1.topic3)
    ∧ (∀ txs, mapExcept (to_deposit_tx getForY) m = .ok txs →
        (∀ e ∈ evs, e.topic2 < 2 ^ 32) → a < 2 ^ 32 →
        ∃ tx, to_deposit_tx getForY
            (a, e1.data + (rest.map (fun e => e.data)).sum, e1.topic3) = .ok tx
          ∧ txs.filter (fun tx' => tx'.account == a) = [tx]) := by
  have hred := process_deposit_events_per_account depositTopic cancelTopic a
    evs [] m hm
  rw [hfil,
    show lookupA ([] : List (Nat × Nat × Nat)) a = none from rfl] at hred
  have h1 : e1.topic0 = depositTopic := hall e1 (List.mem_cons_self e1 rest)
  rw [reduceForAccount_dep_none h1] at hred
  have hsum := reduceForAccount_all_dep depositTopic cancelTopic rest
    (e1.data, e1.topic3) (lookupA m a)
    (fun e he => hall e (List.mem_cons_of_mem e1 he)) hred
  refine ⟨hsum, ?_⟩
  intro txs hconv hsmall ha
  have hnd := process_deposit_events_nodup depositTopic cancelTopic evs
    [] m hm (by rw [keysOf_nil]; exact List.nodup_nil)
  have hkl := process_deposit_events_keys_lt depositTopic cancelTopic evs
    [] m hm hsmall (by rw [keysOf_nil]; intro k hk; cases hk)
  exact (mapExcept_deposit_filter getForY a ha m txs hnd hkl hconv).2
    (e1.data + (rest.map (fun e => e.data)).sum, e1.topic3) hsum

theorem deposit_first_pubkey_wins_witness :
    lookupA [(5, ((70 : Nat), (77 : Nat)))] 5 = some (10 + (20 + 40), 77)
    ∧ ∃ tx, to_deposit_tx (fun y _ => some (0, y)) (5, 10 + (20 + 40), 77) = .ok tx
        ∧ List.filter (fun tx' => tx'.account == 5)
            [({ account := 5 % 2 ^ 32, amount := ((70 : Nat) : ℚ), pubX := 0, pubY := 77 } : DepositTx)]
          = [tx] := by
  have h := deposit_first_pubkey_wins (fun y _ => some (0, y)) 1 2 5
    [⟨1, 5, 77, 10, 1, 0, false⟩, ⟨1, 5, 88, 20, 2, 0, false⟩,
      ⟨1, 5, 99, 40, 3, 0, false⟩]
    ⟨1, 5, 77, 10, 1, 0, false⟩
    [⟨1, 5, 88, 20, 2, 0, false⟩, ⟨1, 5, 99, 40, 3, 0, false⟩]
    [(5, (70, 77))] rfl (by decide) rfl
  exact ⟨h.1, h.2
    [({ account := 5 % 2 ^ 32, amount := ((70 : Nat) : ℚ), pubX := 0, pubY := 77 } : DepositTx)]
    rfl (by decide) (by decide)⟩

end AccountsState
